import Mathlib

/-!
A shallow embedding of the job-shop scheduling constraint generator in `jsp.py`.

The Python code turns a job spec (an insertion-ordered dict from job identifier
to an ordered list of `(machine, duration)` operations) and a horizon `max_time`
into:

* per-operation windows of admissible 1-based start times (`get_time_vars`),
* per-machine sets of exclusion pairs of decision-variable keys
  (`get_machine_cap_pairs`, built from lists `a_m` for the overlap rule and
  `b_m` for the equal-start rule),
* per-job lists of precedence exclusion tuples (`get_precedence_pairs`),
* the one-hot helpers `start_once` and `get_one_hot_configs`.

Dicts are modelled as association lists (Python dicts preserve insertion order
and have unique keys; theorems that depend on key uniqueness state it as a
`Nodup` hypothesis on the key list). Python's string comparison is the
lexicographic order on code points, which is `String.lt`.
-/

/-- Kernel-reducible decidability for the lexicographic order on strings,
so that concrete instances can be settled by `decide`. -/
instance (priority := 10000) strDecLt (s t : String) : Decidable (s < t) :=
  decidable_of_iff (s.toList < t.toList) String.lt_iff_toList_lt.symm

/-- One operation tuple of the job spec: `(machine identifier, duration)`. -/
abbrev Op := String × Nat

/-- The `job_dict` argument: an insertion-ordered dict from job identifier to
the job's ordered operation list. -/
abbrev JobSpec := List (String × List Op)

/-- A decision-variable key `(job, op_num, start_time)` with 1-based `op_num`
and 1-based start time, as produced on lines 108-115 of `jsp.py`. -/
abbrev VarKey := String × Nat × Nat

/-- Dict lookup on an association list: value of the first entry with the given
key, or the default `d`. On a Python dict (unique keys) this is exactly
subscripting. -/
def alistGet {β : Type} (l : List (String × β)) (j : String) (d : β) : β :=
  match l.find? (fun p => p.1 == j) with
  | some p => p.2
  | none => d

/-- The per-job loop body of `JSP.get_time_vars` (lines 150-157): for each
operation emit `[t + 1 for t in range(back_space, max_time - forward_space)]`,
then, only when `remove_impossible_times` is true, decrement `forward_space`
and increment `back_space` by the operation's duration. `forward_space` is an
integer because it can become negative in the Python code (it starts at
`sum - 1` and is decremented below zero on the last operation). -/
def jobWindowsGo (maxT : Nat) (rit : Bool) : List Op → Int → Nat → List (List Nat)
  | [], _, _ => []
  | op :: ops, forward, back =>
      ((List.range (((maxT : Int) - forward - (back : Int)).toNat)).map
        (fun t => back + t + 1)) ::
        jobWindowsGo maxT rit ops (if rit then forward - (op.2 : Int) else forward)
          (if rit then back + op.2 else back)

/-- Windows of one job (`JSP.get_time_vars` lines 142-157): `forward_space`
starts at `sum of durations - 1` when `remove_impossible_times` is true and at
`0` otherwise; `back_space` starts at `0`. -/
def jobWindows (maxT : Nat) (rit : Bool) (ops : List Op) : List (List Nat) :=
  jobWindowsGo maxT rit ops
    (if rit then (((ops.map (fun op => op.2)).sum : Nat) : Int) - 1 else 0) 0

/-- `JSP.get_time_vars` (lines 134-158): dict from job to the list of
per-operation admissible start-time lists. -/
def get_time_vars (J : JobSpec) (maxT : Nat) (rit : Bool) :
    List (String × List (List Nat)) :=
  J.map (fun p => (p.1, jobWindows maxT rit p.2))

/-- The window lookup `self.time_vars[job][op_idx]` used by the pair
generators. Out-of-range indices give `[]`. -/
def tvAt (J : JobSpec) (maxT : Nat) (rit : Bool) (j : String) (x : Nat) : List Nat :=
  (alistGet (get_time_vars J maxT rit) j []).getD x []

/-- The duration lookup `self.job_dict[job][op_idx][1]` used by the pair
generators. -/
def durAt (J : JobSpec) (j : String) (x : Nat) : Nat :=
  ((alistGet J j []).getD x ("", 0)).2

/-- The machine of the operation at `(job, op_idx)` in the job spec,
`self.job_dict[job][op_idx][0]`. -/
def opMach (J : JobSpec) (j : String) (x : Nat) : String :=
  ((alistGet J j []).getD x ("", 0)).1

/-- An element of `ops_on_m` (lines 73-78): the dict
`{"job": job, "op_idx": op_idx}` identifying one operation. -/
structure OpRef where
  job : String
  opIdx : Nat
  deriving DecidableEq

/-- The set of machine identifiers appearing in the job spec (lines 64-68);
a Python `set`, modelled as a deduplicated list. -/
def machinesOf (J : JobSpec) : List String :=
  (J.flatMap (fun p => p.2.map (fun op => op.1))).dedup

/-- `ops_on_m` (lines 73-78): the operations of the job spec assigned to
machine `m`, in job-spec order. -/
def opsOn (J : JobSpec) (m : String) : List OpRef :=
  J.flatMap (fun p =>
    (p.2.enum.filter (fun oi => oi.2.1 == m)).map (fun oi => OpRef.mk p.1 oi.1))

/-- `a_m` (lines 81-89): overlap-rule tuples `(i, t, k, tprime)` with
`i != k`, `t < tprime`, `tprime - t < p_i` and `tprime - t > 0`, with `t`
ranging over `i`'s window and `tprime` over `k`'s window. -/
def a_m (J : JobSpec) (maxT : Nat) (rit : Bool) (m : String) :
    List (OpRef × Nat × OpRef × Nat) :=
  (opsOn J m).flatMap (fun i =>
    (opsOn J m).flatMap (fun k =>
      (tvAt J maxT rit i.job i.opIdx).flatMap (fun t =>
        (tvAt J maxT rit k.job k.opIdx).filterMap (fun tp =>
          if i ≠ k ∧ t < tp ∧ tp - t < durAt J i.job i.opIdx ∧ tp - t > 0 then
            some (i, t, k, tp)
          else none))))

/-- `b_m` (lines 93-105): equal-start tuples `(i, t, k, tprime)` with the
pair in canonical order (`i["job"] < k["job"]`, or equal jobs and
`i["op_idx"] < k["op_idx"]`), `t = tprime`, and both durations positive. -/
def b_m (J : JobSpec) (maxT : Nat) (rit : Bool) (m : String) :
    List (OpRef × Nat × OpRef × Nat) :=
  (opsOn J m).flatMap (fun i =>
    (opsOn J m).flatMap (fun k =>
      (tvAt J maxT rit i.job i.opIdx).flatMap (fun t =>
        (tvAt J maxT rit k.job k.opIdx).filterMap (fun tp =>
          if (i.job < k.job ∨ (i.job = k.job ∧ i.opIdx < k.opIdx)) ∧ t = tp ∧
              durAt J i.job i.opIdx > 0 ∧ durAt J k.job k.opIdx > 0 then
            some (i, t, k, tp)
          else none))))

/-- The variable key of an operation reference and a start time:
`(i["job"], i["op_idx"] + 1, t)` (lines 108-115). -/
def toKey (i : OpRef) (t : Nat) : VarKey :=
  (i.job, i.opIdx + 1, t)

/-- `a_m_keys` (lines 108-111): the overlap-rule tuples converted to pairs of
variable keys. -/
def a_m_keys (J : JobSpec) (maxT : Nat) (rit : Bool) (m : String) :
    List (VarKey × VarKey) :=
  (a_m J maxT rit m).map (fun q => (toKey q.1 q.2.1, toKey q.2.2.1 q.2.2.2))

/-- `b_m_keys` (lines 112-115): the equal-start tuples converted to pairs of
variable keys. -/
def b_m_keys (J : JobSpec) (maxT : Nat) (rit : Bool) (m : String) :
    List (VarKey × VarKey) :=
  (b_m J maxT rit m).map (fun q => (toKey q.1 q.2.1, toKey q.2.2.1 q.2.2.2))

/-- `r_m[machine] = set(a_m_keys + b_m_keys)` (line 117): the per-machine
exclusion set, modelled as a deduplicated list. -/
def r_m (J : JobSpec) (maxT : Nat) (rit : Bool) (m : String) :
    List (VarKey × VarKey) :=
  (a_m_keys J maxT rit m ++ b_m_keys J maxT rit m).dedup

/-- `JSP.get_machine_cap_pairs` (lines 57-118): dict from machine to its
exclusion set. -/
def get_machine_cap_pairs (J : JobSpec) (maxT : Nat) (rit : Bool) :
    List (String × List (VarKey × VarKey)) :=
  (machinesOf J).map (fun m => (m, r_m J maxT rit m))

/-- The per-job comprehension of `JSP.get_precedence_pairs` (lines 126-131):
tuples `(i, t, i + 1, tprime)` for `i` in `range(len(ops) - 1)` with
`t + p_i > tprime`. -/
def precPairsFor (J : JobSpec) (maxT : Nat) (rit : Bool) (job : String)
    (ops : List Op) : List (Nat × Nat × Nat × Nat) :=
  (List.range (ops.length - 1)).flatMap (fun i =>
    (tvAt J maxT rit job i).flatMap (fun t =>
      (tvAt J maxT rit job (i + 1)).filterMap (fun tp =>
        if t + durAt J job i > tp then some (i, t, i + 1, tp) else none)))

/-- `JSP.get_precedence_pairs` (lines 120-132): dict from job to its list of
precedence tuples. -/
def get_precedence_pairs (J : JobSpec) (maxT : Nat) (rit : Bool) :
    List (String × List (Nat × Nat × Nat × Nat)) :=
  J.map (fun p => (p.1, precPairsFor J maxT rit p.1 p.2))

/-- `start_once` (lines 286-291): `sum(args) == 1` over the binary variables
of one operation. -/
def start_once (args : List Nat) : Bool :=
  args.sum == 1

/-- `get_one_hot_configs` (lines 294-304): for each `i < length`, the list
`[0] * length` with position `i` set to `1`. -/
def get_one_hot_configs (n : Nat) : List (List Nat) :=
  (List.range n).map (fun i => (List.replicate n 0).set i 1)

/-- Spec-side prefix sum: the sum of the durations of the job's operations
before index `x` ("sum of durations of the job's prior operations"). -/
def durBefore (ops : List Op) (x : Nat) : Nat :=
  ((ops.take x).map (fun op => op.2)).sum

/-- Spec-side suffix sum: the sum of the durations of the job's operations
from index `x` on ("sum of durations of this and later operations"). -/
def durFrom (ops : List Op) (x : Nat) : Nat :=
  ((ops.drop x).map (fun op => op.2)).sum

/-- Spec-side contiguous range: the 1-based integers from `lo` up to and
including `hi` (empty when `hi < lo`). -/
def intRange (lo : Nat) (hi : Int) : List Nat :=
  (List.range ((hi + 1 - (lo : Nat)).toNat)).map (fun t => lo + t)

/-- The job spec of the end-to-end example in the spec and in
`test_jsp.py`. -/
def exampleJobs : JobSpec :=
  [("j1", [("m1", 2), ("m2", 1), ("m3", 1)]),
   ("j2", [("m3", 2), ("m1", 1), ("m2", 2)]),
   ("j3", [("m2", 1), ("m1", 1), ("m3", 2)])]

theorem alistGet_timeVars (J : JobSpec) (maxT : Nat) (rit : Bool) (j : String) :
    alistGet (get_time_vars J maxT rit) j [] = jobWindows maxT rit (alistGet J j []) := by
  induction J with
  | nil => rfl
  | cons p J ih =>
      by_cases h : p.1 == j
      · simp [alistGet, get_time_vars, List.find?, h]
      · simpa [alistGet, get_time_vars, List.find?, h] using ih

theorem alistGet_eq_of_mem {β : Type} {J : List (String × β)} {j : String} {b : β}
    (hnd : (J.map Prod.fst).Nodup) (hmem : (j, b) ∈ J) (d : β) : alistGet J j d = b := by
  induction J with
  | nil => cases hmem
  | cons p J ih =>
      rcases List.mem_cons.mp hmem with h | h
      · subst h
        simp [alistGet, List.find?]
      · have hj : p.1 ≠ j := by
          intro he
          exact (List.nodup_cons.mp hnd).1 (he ▸ (List.mem_map_of_mem Prod.fst h))
        have hb : (p.1 == j) = false := by simp [hj]
        simpa [alistGet, List.find?, hb] using ih (List.nodup_cons.mp hnd).2 h

theorem mem_unique_of_nodup {β : Type} {J : List (String × β)} {j : String} {a b : β}
    (hnd : (J.map Prod.fst).Nodup) (ha : (j, a) ∈ J) (hb : (j, b) ∈ J) : a = b := by
  have h1 := alistGet_eq_of_mem hnd ha a
  have h2 := alistGet_eq_of_mem hnd hb a
  rw [h1] at h2
  exact h2

theorem jobWindowsGo_length (maxT : Nat) (rit : Bool) :
    ∀ (ops : List Op) (f : Int) (b : Nat),
      (jobWindowsGo maxT rit ops f b).length = ops.length
  | [], _, _ => rfl
  | _ :: ops, f, b => by
      simp [jobWindowsGo, jobWindowsGo_length maxT rit ops]

theorem jobWindows_length (maxT : Nat) (rit : Bool) (ops : List Op) :
    (jobWindows maxT rit ops).length = ops.length :=
  jobWindowsGo_length maxT rit ops _ _

theorem mem_enumFrom_iff {α : Type} {a : α} :
    ∀ (l : List α) (n i : Nat),
      (i, a) ∈ List.enumFrom n l ↔ ∃ k, i = n + k ∧ l[k]? = some a
  | [], n, i => by simp
  | b :: l, n, i => by
    rw [List.enumFrom_cons, List.mem_cons, mem_enumFrom_iff l (n + 1) i]
    constructor
    · rintro (h | ⟨k, rfl, hk⟩)
      · obtain ⟨h1, h2⟩ := Prod.mk.injEq .. ▸ h
        exact ⟨0, by omega, by simp [h2.symm]⟩
      · exact ⟨k + 1, by omega, by simpa using hk⟩
    · rintro ⟨k, rfl, hk⟩
      match k with
      | 0 =>
          left
          simp only [List.getElem?_cons_zero, Option.some.injEq] at hk
          simp [hk]
      | k + 1 =>
          right
          refine ⟨k, by omega, ?_⟩
          simpa using hk

theorem mem_opsOn_iff {J : JobSpec} {m j : String} {x : Nat} :
    OpRef.mk j x ∈ opsOn J m ↔
      ∃ ops, (j, ops) ∈ J ∧ ∃ op, ops[x]? = some op ∧ op.1 = m := by
  unfold opsOn
  rw [List.mem_flatMap]
  constructor
  · rintro ⟨p, hp, hmem⟩
    obtain ⟨oi, hoi, hkey⟩ := List.mem_map.mp hmem
    obtain ⟨henum, hmach⟩ := List.mem_filter.mp hoi
    obtain ⟨h1, h2⟩ := OpRef.mk.injEq .. ▸ hkey
    obtain ⟨k, hk, hget⟩ := (mem_enumFrom_iff p.2 0 oi.1).mp (by
      rw [show ((oi.1, oi.2) : Nat × Op) = oi from rfl]
      exact henum)
    refine ⟨p.2, ?_, oi.2, ?_, ?_⟩
    · rw [← h1]; exact (show (p.1, p.2) = p from rfl) ▸ hp
    · rw [← h2, hk]; simpa using hget
    · exact eq_of_beq hmach
  · rintro ⟨ops, hops, op, hget, hmach⟩
    refine ⟨(j, ops), hops, List.mem_map.mpr ⟨(x, op), List.mem_filter.mpr ⟨?_, ?_⟩, rfl⟩⟩
    · exact (mem_enumFrom_iff ops 0 x).mpr ⟨x, by omega, hget⟩
    · exact beq_iff_eq.mpr hmach

theorem tvAt_eq {J : JobSpec} {j : String} {ops : List Op}
    (hnd : (J.map Prod.fst).Nodup) (hmem : (j, ops) ∈ J)
    (maxT : Nat) (rit : Bool) (x : Nat) :
    tvAt J maxT rit j x = (jobWindows maxT rit ops).getD x [] := by
  rw [tvAt, alistGet_timeVars, alistGet_eq_of_mem hnd hmem]

theorem durAt_eq {J : JobSpec} {j : String} {ops : List Op}
    (hnd : (J.map Prod.fst).Nodup) (hmem : (j, ops) ∈ J) (x : Nat) :
    durAt J j x = (ops.getD x ("", 0)).2 := by
  rw [durAt, alistGet_eq_of_mem hnd hmem]

theorem opMach_eq {J : JobSpec} {j : String} {ops : List Op}
    (hnd : (J.map Prod.fst).Nodup) (hmem : (j, ops) ∈ J) (x : Nat) :
    opMach J j x = (ops.getD x ("", 0)).1 := by
  rw [opMach, alistGet_eq_of_mem hnd hmem]

theorem mem_filterMap_ite {α β : Type} (l : List α) (p : α → Prop) [DecidablePred p]
    (f : α → β) (b : β) :
    (b ∈ l.filterMap (fun a => if p a then some (f a) else none)) ↔
      ∃ a ∈ l, p a ∧ f a = b := by
  rw [List.mem_filterMap]
  constructor
  · rintro ⟨a, ha, h⟩
    by_cases hp : p a
    · rw [if_pos hp] at h
      exact ⟨a, ha, hp, Option.some.injEq .. ▸ h⟩
    · rw [if_neg hp] at h
      cases h
  · rintro ⟨a, ha, hp, rfl⟩
    exact ⟨a, ha, if_pos hp⟩

example : jobWindows 7 true [("m1", 2), ("m2", 1), ("m3", 1)] =
    [[1, 2, 3, 4], [3, 4, 5, 6], [4, 5, 6, 7]] := by decide

example : jobWindows 3 false [("m1", 2), ("m2", 1)] = [[1, 2, 3], [1, 2, 3]] := by
  decide

example : jobWindows 1 true [("m1", 2), ("m2", 2)] = [[], []] := by decide

example : tvAt exampleJobs 7 true "j2" 1 = [3, 4, 5] := by decide

example : ((("a", 1, 1), ("b", 1, 2)) :
    VarKey × VarKey) ∈ a_m_keys [("a", [("m", 2)]), ("b", [("m", 2)])] 2 false "m" := by
  decide

example : ((("a", 1, 1), ("b", 1, 1)) :
    VarKey × VarKey) ∈ b_m_keys [("a", [("m", 2)]), ("b", [("m", 2)])] 2 false "m" := by
  decide

theorem getElem?_eq_some_getD {α : Type} {l : List α} {x : Nat} (h : x < l.length)
    (d : α) : l[x]? = some (l.getD x d) := by
  rw [List.getD_eq_getElem?_getD, List.getElem?_eq_getElem h]
  rfl

theorem getD_eq_of_getElem? {α : Type} {l : List α} {x : Nat} {a : α}
    (h : l[x]? = some a) (d : α) : l.getD x d = a := by
  rw [List.getD_eq_getElem?_getD, h]
  rfl

theorem lt_length_of_getElem? {α : Type} {l : List α} {x : Nat} {a : α}
    (h : l[x]? = some a) : x < l.length := by
  rcases List.getElem?_eq_some.mp h with ⟨hlt, _⟩
  exact hlt

theorem mem_a_m_keys_iff {J : JobSpec} {maxT : Nat} {rit : Bool} {m : String}
    {pq : VarKey × VarKey} :
    pq ∈ a_m_keys J maxT rit m ↔
      ∃ i k t tp, i ∈ opsOn J m ∧ k ∈ opsOn J m ∧
        t ∈ tvAt J maxT rit i.job i.opIdx ∧ tp ∈ tvAt J maxT rit k.job k.opIdx ∧
        (i ≠ k ∧ t < tp ∧ tp - t < durAt J i.job i.opIdx ∧ tp - t > 0) ∧
        pq = (toKey i t, toKey k tp) := by
  unfold a_m_keys a_m
  rw [List.mem_map]
  constructor
  · rintro ⟨q, hq, rfl⟩
    obtain ⟨i, hi, hq⟩ := List.mem_flatMap.mp hq
    obtain ⟨k, hk, hq⟩ := List.mem_flatMap.mp hq
    obtain ⟨t, ht, hq⟩ := List.mem_flatMap.mp hq
    obtain ⟨tp, htp, hc, hval⟩ := (mem_filterMap_ite _ _ _ _).mp hq
    subst hval
    exact ⟨i, k, t, tp, hi, hk, ht, htp, hc, rfl⟩
  · rintro ⟨i, k, t, tp, hi, hk, ht, htp, hc, rfl⟩
    refine ⟨(i, t, k, tp), ?_, rfl⟩
    exact List.mem_flatMap.mpr ⟨i, hi, List.mem_flatMap.mpr ⟨k, hk,
      List.mem_flatMap.mpr ⟨t, ht, (mem_filterMap_ite _ _ _ _).mpr ⟨tp, htp, hc, rfl⟩⟩⟩⟩

theorem mem_b_m_keys_iff {J : JobSpec} {maxT : Nat} {rit : Bool} {m : String}
    {pq : VarKey × VarKey} :
    pq ∈ b_m_keys J maxT rit m ↔
      ∃ i k t tp, i ∈ opsOn J m ∧ k ∈ opsOn J m ∧
        t ∈ tvAt J maxT rit i.job i.opIdx ∧ tp ∈ tvAt J maxT rit k.job k.opIdx ∧
        ((i.job < k.job ∨ (i.job = k.job ∧ i.opIdx < k.opIdx)) ∧ t = tp ∧
          durAt J i.job i.opIdx > 0 ∧ durAt J k.job k.opIdx > 0) ∧
        pq = (toKey i t, toKey k tp) := by
  unfold b_m_keys b_m
  rw [List.mem_map]
  constructor
  · rintro ⟨q, hq, rfl⟩
    obtain ⟨i, hi, hq⟩ := List.mem_flatMap.mp hq
    obtain ⟨k, hk, hq⟩ := List.mem_flatMap.mp hq
    obtain ⟨t, ht, hq⟩ := List.mem_flatMap.mp hq
    obtain ⟨tp, htp, hc, hval⟩ := (mem_filterMap_ite _ _ _ _).mp hq
    subst hval
    exact ⟨i, k, t, tp, hi, hk, ht, htp, hc, rfl⟩
  · rintro ⟨i, k, t, tp, hi, hk, ht, htp, hc, rfl⟩
    refine ⟨(i, t, k, tp), ?_, rfl⟩
    exact List.mem_flatMap.mpr ⟨i, hi, List.mem_flatMap.mpr ⟨k, hk,
      List.mem_flatMap.mpr ⟨t, ht, (mem_filterMap_ite _ _ _ _).mpr ⟨tp, htp, hc, rfl⟩⟩⟩⟩

theorem mem_precPairsFor_iff {J : JobSpec} {maxT : Nat} {rit : Bool} {job : String}
    {ops : List Op} {q : Nat × Nat × Nat × Nat} :
    q ∈ precPairsFor J maxT rit job ops ↔
      ∃ i t tp, i ∈ List.range (ops.length - 1) ∧
        t ∈ tvAt J maxT rit job i ∧ tp ∈ tvAt J maxT rit job (i + 1) ∧
        t + durAt J job i > tp ∧ q = (i, t, i + 1, tp) := by
  unfold precPairsFor
  constructor
  · intro hq
    obtain ⟨i, hi, hq⟩ := List.mem_flatMap.mp hq
    obtain ⟨t, ht, hq⟩ := List.mem_flatMap.mp hq
    obtain ⟨tp, htp, hc, hval⟩ := (mem_filterMap_ite _ _ _ _).mp hq
    subst hval
    exact ⟨i, t, tp, hi, ht, htp, hc, rfl⟩
  · rintro ⟨i, t, tp, hi, ht, htp, hc, rfl⟩
    exact List.mem_flatMap.mpr ⟨i, hi, List.mem_flatMap.mpr ⟨t, ht,
      (mem_filterMap_ite _ _ _ _).mpr ⟨tp, htp, hc, rfl⟩⟩⟩

theorem opsOn_data {J : JobSpec} {m j : String} {x : Nat} {ops : List Op}
    (hnd : (J.map Prod.fst).Nodup) (hop : OpRef.mk j x ∈ opsOn J m)
    (hmem : (j, ops) ∈ J) : x < ops.length ∧ (ops.getD x ("", 0)).1 = m := by
  obtain ⟨ops', hmem', op, hget, hmach⟩ := mem_opsOn_iff.mp hop
  have he : ops = ops' := mem_unique_of_nodup hnd hmem hmem'
  subst he
  exact ⟨lt_length_of_getElem? hget, by rw [getD_eq_of_getElem? hget]; exact hmach⟩

theorem opsOn_of_data {J : JobSpec} {m j : String} {x : Nat} {ops : List Op}
    (hmem : (j, ops) ∈ J) (hlt : x < ops.length)
    (hmach : (ops.getD x ("", 0)).1 = m) : OpRef.mk j x ∈ opsOn J m :=
  mem_opsOn_iff.mpr ⟨ops, hmem, ops.getD x ("", 0), getElem?_eq_some_getD hlt _, hmach⟩

/-- C1: an overlap-rule exclusion pair between variable `(i, t)` and variable
`(k, t′)` is emitted exactly when `i` and `k` are distinct operations assigned
to machine `m`, `t` is in `i`'s window, `t′` is in `k`'s window, and
`0 < t′ − t < duration(i)`; the characterization holds for every role
assignment of the unordered pair (`j1, x1` occupier and `j2, x2` occupier
alike), with only the occupying operation's own duration bounding the band. -/
theorem C1_overlap_rule (J : JobSpec) (maxT : Nat) (rit : Bool)
    (hnd : (J.map Prod.fst).Nodup) (m j1 j2 : String) (x1 x2 t tp : Nat) :
    ((j1, x1 + 1, t), (j2, x2 + 1, tp)) ∈ a_m_keys J maxT rit m ↔
      ∃ ops1 ops2, (j1, ops1) ∈ J ∧ (j2, ops2) ∈ J ∧
        x1 < ops1.length ∧ x2 < ops2.length ∧
        (ops1.getD x1 ("", 0)).1 = m ∧ (ops2.getD x2 ("", 0)).1 = m ∧
        (j1, x1) ≠ (j2, x2) ∧
        t ∈ (jobWindows maxT rit ops1).getD x1 [] ∧
        tp ∈ (jobWindows maxT rit ops2).getD x2 [] ∧
        0 < tp - t ∧ tp - t < (ops1.getD x1 ("", 0)).2 := by
  rw [mem_a_m_keys_iff]
  constructor
  · rintro ⟨i, k, t', tp', hi, hk, ht, htp, ⟨hik, hlt, hdur, hpos⟩, hkey⟩
    obtain ⟨ij, ix⟩ := i
    obtain ⟨kj, kx⟩ := k
    simp only [toKey, Prod.mk.injEq] at hkey
    obtain ⟨⟨hj1, hx1, ht'⟩, hj2, hx2, htp'⟩ := hkey
    subst hj1; subst hj2; subst ht'; subst htp'
    have hxx1 : ix = x1 := by omega
    have hxx2 : kx = x2 := by omega
    subst hxx1; subst hxx2
    obtain ⟨ops1, hmem1, op1, hget1, hm1⟩ := mem_opsOn_iff.mp hi
    obtain ⟨ops2, hmem2, op2, hget2, hm2⟩ := mem_opsOn_iff.mp hk
    rw [tvAt_eq hnd hmem1] at ht
    rw [tvAt_eq hnd hmem2] at htp
    rw [durAt_eq hnd hmem1] at hdur
    refine ⟨ops1, ops2, hmem1, hmem2, lt_length_of_getElem? hget1,
      lt_length_of_getElem? hget2, ?_, ?_, ?_, ht, htp, by omega, hdur⟩
    · rw [getD_eq_of_getElem? hget1]; exact hm1
    · rw [getD_eq_of_getElem? hget2]; exact hm2
    · intro he
      obtain ⟨he1, he2⟩ := Prod.mk.injEq .. ▸ he
      exact hik (by rw [he1, he2])
  · rintro ⟨ops1, ops2, hmem1, hmem2, hlt1, hlt2, hm1, hm2, hne, ht, htp, hpos, hdur⟩
    refine ⟨OpRef.mk j1 x1, OpRef.mk j2 x2, t, tp,
      opsOn_of_data hmem1 hlt1 hm1, opsOn_of_data hmem2 hlt2 hm2, ?_, ?_,
      ⟨?_, by omega, ?_, hpos⟩, rfl⟩
    · rw [tvAt_eq hnd hmem1]; exact ht
    · rw [tvAt_eq hnd hmem2]; exact htp
    · intro he
      obtain ⟨he1, he2⟩ := OpRef.mk.injEq .. ▸ he
      exact hne (by rw [he1, he2])
    · rw [durAt_eq hnd hmem1]; exact hdur

/-- A two-job spec with both operations on one machine, used to instantiate
the hypothesis-bearing theorems at a concrete input. -/
def smallJobs : JobSpec := [("a", [("m", 2)]), ("b", [("m", 2)])]

/-- Witness for C1: the characterization instantiated on a concrete spec; the
overlap pair of job "a" (occupying, duration 2, start 1) against job "b"
(start 2) on machine "m". -/
theorem C1_overlap_rule_witness :
    (smallJobs.map Prod.fst).Nodup ∧
      ((("a", 0 + 1, 1), ("b", 0 + 1, 2)) ∈ a_m_keys smallJobs 2 false "m" ↔
        ∃ ops1 ops2, ("a", ops1) ∈ smallJobs ∧ ("b", ops2) ∈ smallJobs ∧
          0 < ops1.length ∧ 0 < ops2.length ∧
          (ops1.getD 0 ("", 0)).1 = "m" ∧ (ops2.getD 0 ("", 0)).1 = "m" ∧
          (("a", 0) : String × Nat) ≠ ("b", 0) ∧
          1 ∈ (jobWindows 2 false ops1).getD 0 [] ∧
          2 ∈ (jobWindows 2 false ops2).getD 0 [] ∧
          0 < 2 - 1 ∧ 2 - 1 < (ops1.getD 0 ("", 0)).2) :=
  ⟨by decide, C1_overlap_rule smallJobs 2 false (by decide) "m" "a" "b" 0 0 1 2⟩

/-- C2: an equal-start exclusion pair between variable `(i, t)` and variable
`(k, t′)` is emitted exactly when `i` and `k` are operations on the same
machine with `t = t′` in their respective windows, both durations positive,
and `(i, k)` in canonical order: `i`'s job identifier lexicographically
smaller than `k`'s, or equal jobs and `i`'s operation index smaller (which in
particular makes the two operations distinct). -/
theorem C2_equal_start_rule (J : JobSpec) (maxT : Nat) (rit : Bool)
    (hnd : (J.map Prod.fst).Nodup) (m j1 j2 : String) (x1 x2 t tp : Nat) :
    ((j1, x1 + 1, t), (j2, x2 + 1, tp)) ∈ b_m_keys J maxT rit m ↔
      ∃ ops1 ops2, (j1, ops1) ∈ J ∧ (j2, ops2) ∈ J ∧
        x1 < ops1.length ∧ x2 < ops2.length ∧
        (ops1.getD x1 ("", 0)).1 = m ∧ (ops2.getD x2 ("", 0)).1 = m ∧
        t ∈ (jobWindows maxT rit ops1).getD x1 [] ∧
        tp ∈ (jobWindows maxT rit ops2).getD x2 [] ∧
        t = tp ∧ (ops1.getD x1 ("", 0)).2 > 0 ∧ (ops2.getD x2 ("", 0)).2 > 0 ∧
        (j1 < j2 ∨ (j1 = j2 ∧ x1 < x2)) := by
  rw [mem_b_m_keys_iff]
  constructor
  · rintro ⟨i, k, t', tp', hi, hk, ht, htp, ⟨hord, heq, hd1, hd2⟩, hkey⟩
    obtain ⟨ij, ix⟩ := i
    obtain ⟨kj, kx⟩ := k
    simp only [toKey, Prod.mk.injEq] at hkey
    obtain ⟨⟨hj1, hx1, ht'⟩, hj2, hx2, htp'⟩ := hkey
    subst hj1; subst hj2; subst ht'; subst htp'
    have hxx1 : ix = x1 := by omega
    have hxx2 : kx = x2 := by omega
    subst hxx1; subst hxx2
    obtain ⟨ops1, hmem1, op1, hget1, hm1⟩ := mem_opsOn_iff.mp hi
    obtain ⟨ops2, hmem2, op2, hget2, hm2⟩ := mem_opsOn_iff.mp hk
    rw [tvAt_eq hnd hmem1] at ht
    rw [tvAt_eq hnd hmem2] at htp
    rw [durAt_eq hnd hmem1] at hd1
    rw [durAt_eq hnd hmem2] at hd2
    refine ⟨ops1, ops2, hmem1, hmem2, lt_length_of_getElem? hget1,
      lt_length_of_getElem? hget2, ?_, ?_, ht, htp, heq, hd1, hd2, hord⟩
    · rw [getD_eq_of_getElem? hget1]; exact hm1
    · rw [getD_eq_of_getElem? hget2]; exact hm2
  · rintro ⟨ops1, ops2, hmem1, hmem2, hlt1, hlt2, hm1, hm2, ht, htp, heq, hd1, hd2, hord⟩
    refine ⟨OpRef.mk j1 x1, OpRef.mk j2 x2, t, tp,
      opsOn_of_data hmem1 hlt1 hm1, opsOn_of_data hmem2 hlt2 hm2, ?_, ?_,
      ⟨hord, heq, ?_, ?_⟩, rfl⟩
    · rw [tvAt_eq hnd hmem1]; exact ht
    · rw [tvAt_eq hnd hmem2]; exact htp
    · rw [durAt_eq hnd hmem1]; exact hd1
    · rw [durAt_eq hnd hmem2]; exact hd2

/-- Witness for C2: the characterization instantiated on a concrete spec; the
equal-start pair of jobs "a" and "b" (canonical order, both durations 2) at
common start time 1 on machine "m". -/
theorem C2_equal_start_rule_witness :
    (smallJobs.map Prod.fst).Nodup ∧
      ((("a", 0 + 1, 1), ("b", 0 + 1, 1)) ∈ b_m_keys smallJobs 2 false "m" ↔
        ∃ ops1 ops2, ("a", ops1) ∈ smallJobs ∧ ("b", ops2) ∈ smallJobs ∧
          0 < ops1.length ∧ 0 < ops2.length ∧
          (ops1.getD 0 ("", 0)).1 = "m" ∧ (ops2.getD 0 ("", 0)).1 = "m" ∧
          1 ∈ (jobWindows 2 false ops1).getD 0 [] ∧
          1 ∈ (jobWindows 2 false ops2).getD 0 [] ∧
          1 = 1 ∧ (ops1.getD 0 ("", 0)).2 > 0 ∧ (ops2.getD 0 ("", 0)).2 > 0 ∧
          (("a" : String) < "b" ∨ ("a" : String) = "b" ∧ 0 < 0)) :=
  ⟨by decide, C2_equal_start_rule smallJobs 2 false (by decide) "m" "a" "b" 0 0 1 1⟩

theorem keysOf_map {β : Type} (J : JobSpec) (g : String × List Op → β) :
    (J.map (fun p => (p.1, g p))).map Prod.fst = J.map Prod.fst := by
  rw [List.map_map]
  rfl

theorem alistGet_precedence {J : JobSpec} {maxT : Nat} {rit : Bool} {job : String}
    {ops : List Op} (hnd : (J.map Prod.fst).Nodup) (hmem : (job, ops) ∈ J) :
    alistGet (get_precedence_pairs J maxT rit) job [] =
      precPairsFor J maxT rit job ops := by
  apply alistGet_eq_of_mem
  · rw [get_precedence_pairs, keysOf_map]
    exact hnd
  · exact List.mem_map_of_mem (fun p => (p.1, precPairsFor J maxT rit p.1 p.2)) hmem

/-- C3: the precedence generation for a job considers only adjacent operation
pairs `(i, i + 1)`, and emits the tuple `(i, t, i + 1, t′)` exactly when
`i + 1` is still an operation of the job, `t` is in operation `i`'s window,
`t′` is in operation `i + 1`'s window, and `t + duration(i) > t′`. -/
theorem C3_precedence (J : JobSpec) (maxT : Nat) (rit : Bool)
    (hnd : (J.map Prod.fst).Nodup) (job : String) (ops : List Op)
    (hmem : (job, ops) ∈ J) (i t k tp : Nat) :
    (i, t, k, tp) ∈ alistGet (get_precedence_pairs J maxT rit) job [] ↔
      k = i + 1 ∧ i + 1 < ops.length ∧
      t ∈ (jobWindows maxT rit ops).getD i [] ∧
      tp ∈ (jobWindows maxT rit ops).getD (i + 1) [] ∧
      t + (ops.getD i ("", 0)).2 > tp := by
  rw [alistGet_precedence hnd hmem, mem_precPairsFor_iff]
  constructor
  · rintro ⟨i', t', tp', hi, ht, htp, hc, hval⟩
    simp only [Prod.mk.injEq] at hval
    obtain ⟨h1, h2, h3, h4⟩ := hval
    subst h1; subst h2; subst h3; subst h4
    rw [tvAt_eq hnd hmem] at ht htp
    rw [durAt_eq hnd hmem] at hc
    exact ⟨rfl, by have := List.mem_range.mp hi; omega, ht, htp, hc⟩
  · rintro ⟨rfl, hlen, ht, htp, hc⟩
    refine ⟨i, t, tp, List.mem_range.mpr (by omega), ?_, ?_, ?_, rfl⟩
    · rw [tvAt_eq hnd hmem]; exact ht
    · rw [tvAt_eq hnd hmem]; exact htp
    · rw [durAt_eq hnd hmem]; exact hc

/-- Witness for C3: the characterization instantiated on the end-to-end
example; job "j1", adjacent operations 0 and 1, start times 2 and 3 (the
successor would start before the predecessor of duration 2 finishes). -/
theorem C3_precedence_witness :
    (exampleJobs.map Prod.fst).Nodup ∧
      ("j1", [("m1", 2), ("m2", 1), ("m3", 1)]) ∈ exampleJobs ∧
      ((0, 2, 1, 3) ∈ alistGet (get_precedence_pairs exampleJobs 7 true) "j1" [] ↔
        1 = 0 + 1 ∧ 0 + 1 < ([("m1", 2), ("m2", 1), ("m3", 1)] : List Op).length ∧
        2 ∈ (jobWindows 7 true [("m1", 2), ("m2", 1), ("m3", 1)]).getD 0 [] ∧
        3 ∈ (jobWindows 7 true [("m1", 2), ("m2", 1), ("m3", 1)]).getD (0 + 1) [] ∧
        2 + (([("m1", 2), ("m2", 1), ("m3", 1)] : List Op).getD 0 ("", 0)).2 > 3) :=
  ⟨by decide, by decide,
    C3_precedence exampleJobs 7 true (by decide) "j1"
      [("m1", 2), ("m2", 1), ("m3", 1)] (by decide) 0 2 1 3⟩

theorem durBefore_cons (op : Op) (tl : List Op) (x : Nat) :
    durBefore (op :: tl) (x + 1) = op.2 + durBefore tl x := by
  simp [durBefore, List.take_succ_cons]

theorem durBefore_add_durFrom (ops : List Op) (x : Nat) :
    durBefore ops x + durFrom ops x = (ops.map (fun op => op.2)).sum := by
  rw [durBefore, durFrom, ← List.sum_append, ← List.map_append, List.take_append_drop]

theorem jobWindowsGo_true_getD (maxT : Nat) :
    ∀ (ops : List Op) (f : Int) (b : Nat) (x : Nat), x < ops.length →
      (jobWindowsGo maxT true ops f b).getD x [] =
        (List.range (((maxT : Int) - (f - (durBefore ops x : Int)) -
          ((b : Int) + (durBefore ops x : Int))).toNat)).map
          (fun u => b + durBefore ops x + u + 1)
  | [], _, _, x, h => by cases h
  | op :: tl, f, b, 0, _ => by
      simp [jobWindowsGo, durBefore]
  | op :: tl, f, b, x + 1, h => by
      have hlen : x < tl.length := by simpa using h
      rw [jobWindowsGo, List.getD_cons_succ, if_pos rfl, if_pos rfl,
        jobWindowsGo_true_getD maxT tl (f - (op.2 : Int)) (b + op.2) x hlen,
        durBefore_cons]
      have harg : (maxT : Int) - (f - (op.2 : Int) - (durBefore tl x : Int)) -
          (((b + op.2 : Nat) : Int) + (durBefore tl x : Int)) =
          (maxT : Int) - (f - ((op.2 + durBefore tl x : Nat) : Int)) -
          ((b : Int) + ((op.2 + durBefore tl x : Nat) : Int)) := by
        push_cast
        ring
      rw [harg]
      apply List.map_congr_left
      intro u _
      omega

theorem jobWindows_true_getD (maxT : Nat) (ops : List Op) (x : Nat)
    (h : x < ops.length) :
    (jobWindows maxT true ops).getD x [] =
      intRange (1 + durBefore ops x) ((maxT : Int) - ((durFrom ops x : Int) - 1)) := by
  rw [jobWindows, if_pos rfl, jobWindowsGo_true_getD maxT ops _ 0 x h, intRange]
  have hS := durBefore_add_durFrom ops x
  have harg : ((maxT : Int) - ((((ops.map (fun op => op.2)).sum : Nat) : Int) - 1 -
      (durBefore ops x : Int)) - (((0 : Nat) : Int) + (durBefore ops x : Int))).toNat =
      ((maxT : Int) - ((durFrom ops x : Int) - 1) + 1 -
        ((1 + durBefore ops x : Nat) : Int)).toNat := by
    rw [← hS]
    congr 1
    push_cast
    ring
  rw [harg]
  apply List.map_congr_left
  intro u _
  omega

/-- C4: with slack elimination enabled and a positive horizon, the computed
window of operation `x` of a job is exactly the contiguous 1-based integers
from `1 + (sum of durations of the job's prior operations)` up to and
including `horizon - (sum of durations of this and later operations - 1)`. -/
theorem C4_slack_windows (J : JobSpec) (maxT : Nat) (hpos : 0 < maxT)
    (hnd : (J.map Prod.fst).Nodup) (j : String) (ops : List Op)
    (hmem : (j, ops) ∈ J) (x : Nat) (hx : x < ops.length) :
    (alistGet (get_time_vars J maxT true) j []).getD x [] =
      intRange (1 + durBefore ops x) ((maxT : Int) - ((durFrom ops x : Int) - 1)) := by
  rw [alistGet_timeVars, alistGet_eq_of_mem hnd hmem]
  exact jobWindows_true_getD maxT ops x hx

/-- Witness for C4: on the end-to-end example with horizon 7, the first
operation of job "j1" gets the window `intRange 1 (7 - (4 - 1))`, which is
`[1, 2, 3, 4]` as the spec requires. -/
theorem C4_slack_windows_witness :
    0 < 7 ∧ (exampleJobs.map Prod.fst).Nodup ∧
      ("j1", [("m1", 2), ("m2", 1), ("m3", 1)]) ∈ exampleJobs ∧
      (0 : Nat) < ([("m1", 2), ("m2", 1), ("m3", 1)] : List Op).length ∧
      (alistGet (get_time_vars exampleJobs 7 true) "j1" []).getD 0 [] =
        intRange (1 + durBefore [("m1", 2), ("m2", 1), ("m3", 1)] 0)
          ((7 : Int) - ((durFrom [("m1", 2), ("m2", 1), ("m3", 1)] 0 : Int) - 1)) ∧
      intRange (1 + durBefore [("m1", 2), ("m2", 1), ("m3", 1)] 0)
          ((7 : Int) - ((durFrom [("m1", 2), ("m2", 1), ("m3", 1)] 0 : Int) - 1)) =
        [1, 2, 3, 4] :=
  ⟨by decide, by decide, by decide, by decide,
    C4_slack_windows exampleJobs 7 (by decide) (by decide) "j1"
      [("m1", 2), ("m2", 1), ("m3", 1)] (by decide) 0 (by decide), by decide⟩

/-- Counterexample for C5: with jobs `[("j1", [("m1", 2), ("m2", 2)])]` and
horizon 1, an empty window list is produced and carried forward — the claim
says construction must instead fail with an InfeasibleHorizon error and that
an empty window list is never produced. No error mechanism exists in the
code: `get_time_vars` is total. -/
theorem C5_counterexample :
    [] ∈ jobWindows 1 true [("m1", 2), ("m2", 2)] ∧
      get_time_vars [("j1", [("m1", 2), ("m2", 2)])] 1 true =
        [("j1", [[], []])] := by
  constructor
  · decide
  · decide

/-- C5 amended: construction never fails — `get_time_vars` is total, keeps
exactly one (possibly empty) window list per operation of each job, and an
operation with an empty computed window has its empty list carried forward
rather than raising an error (no InfeasibleHorizon exists in the code). -/
theorem C5_amended_total_construction (J : JobSpec) (maxT : Nat) (rit : Bool) :
    (get_time_vars J maxT rit).length = J.length ∧
      ∀ p ∈ J, (jobWindows maxT rit p.2).length = p.2.length ∧
        (p.1, jobWindows maxT rit p.2) ∈ get_time_vars J maxT rit := by
  refine ⟨by simp [get_time_vars], fun p hp => ⟨jobWindows_length maxT rit p.2, ?_⟩⟩
  exact List.mem_map_of_mem (fun q => (q.1, jobWindows maxT rit q.2)) hp

/-- Witness for C5's amended claim instantiated at the counterexample input:
the infeasible job keeps both of its (empty) window slots. -/
theorem C5_amended_total_construction_witness :
    ("j1", [("m1", 2), ("m2", 2)]) ∈ ([("j1", [("m1", 2), ("m2", 2)])] : JobSpec) ∧
      (jobWindows 1 true [("m1", 2), ("m2", 2)]).length =
        ([("m1", 2), ("m2", 2)] : List Op).length ∧
      ("j1", jobWindows 1 true [("m1", 2), ("m2", 2)]) ∈
        get_time_vars [("j1", [("m1", 2), ("m2", 2)])] 1 true :=
  ⟨by decide,
    (C5_amended_total_construction [("j1", [("m1", 2), ("m2", 2)])] 1 true).2
      ("j1", [("m1", 2), ("m2", 2)]) (by decide)⟩

theorem jobWindowsGo_false (maxT : Nat) :
    ∀ (ops : List Op) (f : Int) (b : Nat),
      jobWindowsGo maxT false ops f b =
        ops.map (fun _ =>
          (List.range (((maxT : Int) - f - (b : Int)).toNat)).map (fun t => b + t + 1))
  | [], _, _ => rfl
  | op :: tl, f, b => by
      rw [jobWindowsGo, if_neg (by simp), if_neg (by simp),
        jobWindowsGo_false maxT tl f b, List.map_cons]

/-- Counterexample for C6: with slack elimination disabled, jobs
`[("m1", 2), ("m2", 1)]` and horizon 3, the second operation's window is
`[1, 2, 3]`: start time 1 is admissible even though the claim's formula
`1 + (sum of prior durations) = 3` says the earliest admissible start is 3.
`back_space` is not maintained when the flag is off. -/
theorem C6_counterexample :
    1 ∈ (jobWindows 3 false [("m1", 2), ("m2", 1)]).getD 1 [] ∧
      (jobWindows 3 false [("m1", 2), ("m2", 1)]).getD 1 [] = [1, 2, 3] ∧
      (1 : Nat) ≠ 1 + durBefore [("m1", 2), ("m2", 1)] 1 := by
  refine ⟨by decide, by decide, by decide⟩

/-- C6 amended: when slack elimination is disabled, `forward_space` is 0 for
every operation but `back_space` also stays 0 (its increment is inside the
`remove_impossible_times` branch), so every operation's window is the 1-based
shift of `[0, horizon)`, i.e. `[1, ..., horizon]`, and the earliest admissible
start time is 1 for every operation. -/
theorem C6_amended_no_slack_windows (maxT : Nat) (ops : List Op) :
    jobWindows maxT false ops =
      ops.map (fun _ => (List.range maxT).map (fun t => t + 1)) := by
  rw [jobWindows, if_neg (by simp), jobWindowsGo_false maxT ops 0 0]
  apply List.map_congr_left
  intro op _
  have h : (((maxT : Int) - 0 - ((0 : Nat) : Int)).toNat) = maxT := by omega
  rw [h]
  apply List.map_congr_left
  intro t _
  omega

theorem opMach_of_opsOn {J : JobSpec} {m : String} {i : OpRef}
    (hnd : (J.map Prod.fst).Nodup) (hi : i ∈ opsOn J m) :
    opMach J i.job i.opIdx = m := by
  obtain ⟨ij, ix⟩ := i
  obtain ⟨ops, hmem, op, hget, hm⟩ := mem_opsOn_iff.mp hi
  rw [opMach_eq hnd hmem, getD_eq_of_getElem? hget]
  exact hm

theorem a_m_keys_times {J : JobSpec} {maxT : Nat} {rit : Bool} {m : String}
    {p q : VarKey} (h : (p, q) ∈ a_m_keys J maxT rit m) : p.2.2 < q.2.2 := by
  obtain ⟨i, k, t, tp, _, _, _, _, ⟨_, hlt, _, _⟩, hkey⟩ := mem_a_m_keys_iff.mp h
  obtain ⟨h1, h2⟩ := Prod.mk.injEq .. ▸ hkey
  subst h1; subst h2
  simpa [toKey] using hlt

theorem b_m_keys_shape {J : JobSpec} {maxT : Nat} {rit : Bool} {m : String}
    {p q : VarKey} (h : (p, q) ∈ b_m_keys J maxT rit m) :
    p.2.2 = q.2.2 ∧ (p.1 < q.1 ∨ (p.1 = q.1 ∧ p.2.1 < q.2.1)) := by
  obtain ⟨i, k, t, tp, _, _, _, _, ⟨hord, heq, _, _⟩, hkey⟩ := mem_b_m_keys_iff.mp h
  obtain ⟨h1, h2⟩ := Prod.mk.injEq .. ▸ hkey
  subst h1; subst h2
  refine ⟨by simpa [toKey] using heq, ?_⟩
  rcases hord with hj | ⟨hj, hx⟩
  · left
    simpa [toKey] using hj
  · right
    exact ⟨by simpa [toKey] using hj, by simpa [toKey] using hx⟩

theorem r_m_shape {J : JobSpec} {maxT : Nat} {rit : Bool} {m : String} {p q : VarKey}
    (h : (p, q) ∈ r_m J maxT rit m) :
    p.2.2 < q.2.2 ∨ (p.2.2 = q.2.2 ∧ (p.1 < q.1 ∨ (p.1 = q.1 ∧ p.2.1 < q.2.1))) := by
  rw [r_m, List.mem_dedup, List.mem_append] at h
  rcases h with h | h
  · exact Or.inl (a_m_keys_times h)
  · exact Or.inr (b_m_keys_shape h)

theorem r_m_mach {J : JobSpec} {maxT : Nat} {rit : Bool} {m : String} {p q : VarKey}
    (hnd : (J.map Prod.fst).Nodup) (h : (p, q) ∈ r_m J maxT rit m) :
    opMach J p.1 (p.2.1 - 1) = m := by
  rw [r_m, List.mem_dedup, List.mem_append] at h
  rcases h with h | h
  · obtain ⟨i, k, t, tp, hi, _, _, _, _, hkey⟩ := mem_a_m_keys_iff.mp h
    obtain ⟨h1, h2⟩ := Prod.mk.injEq .. ▸ hkey
    subst h1
    simpa [toKey] using opMach_of_opsOn hnd hi
  · obtain ⟨i, k, t, tp, hi, _, _, _, _, hkey⟩ := mem_b_m_keys_iff.mp h
    obtain ⟨h1, h2⟩ := Prod.mk.injEq .. ▸ hkey
    subst h1
    simpa [toKey] using opMach_of_opsOn hnd hi

/-- C7: in the machine-capacity result each unordered pair of variable keys
appears at most once: every pair occurs at most once in a machine's exclusion
set, no pair occurs in both orientations within one machine's set, the sets
of distinct machines share no pair, and the overlap rule and the equal-start
rule never contribute the same unordered pair. -/
theorem C7_dedup (J : JobSpec) (maxT : Nat) (rit : Bool)
    (hnd : (J.map Prod.fst).Nodup) :
    (∀ m, (r_m J maxT rit m).Nodup) ∧
    (∀ m p q, (p, q) ∈ r_m J maxT rit m → (q, p) ∉ r_m J maxT rit m) ∧
    (∀ m m' pr, m ≠ m' → pr ∈ r_m J maxT rit m → pr ∉ r_m J maxT rit m') ∧
    (∀ m p q, (p, q) ∈ a_m_keys J maxT rit m →
      (p, q) ∉ b_m_keys J maxT rit m ∧ (q, p) ∉ b_m_keys J maxT rit m) := by
  refine ⟨?_, ?_, ?_, ?_⟩
  · intro m
    exact List.nodup_dedup (a_m_keys J maxT rit m ++ b_m_keys J maxT rit m)
  · intro m p q h h'
    rcases r_m_shape h with hs | ⟨he, hs⟩ <;>
      rcases r_m_shape h' with hs' | ⟨he', hs'⟩
    · omega
    · omega
    · omega
    · rcases hs with hj | ⟨hj, hx⟩ <;> rcases hs' with hj' | ⟨hj', hx'⟩
      · exact absurd hj' (lt_asymm hj)
      · rw [hj'] at hj
        exact absurd hj (lt_irrefl _)
      · rw [hj] at hj'
        exact absurd hj' (lt_irrefl _)
      · omega
  · intro m m' pr hne h h'
    obtain ⟨p, q⟩ := pr
    rw [← r_m_mach hnd h, ← r_m_mach hnd h'] at hne
    exact hne rfl
  · intro m p q ha
    have hlt := a_m_keys_times ha
    constructor
    · intro hb
      have := (b_m_keys_shape hb).1
      omega
    · intro hb
      have := (b_m_keys_shape hb).1
      omega

/-- Witness for C7: the deduplication invariants instantiated on a concrete
two-job spec. -/
theorem C7_dedup_witness :
    (smallJobs.map Prod.fst).Nodup ∧
      ((r_m smallJobs 2 false "m").Nodup ∧
        (∀ p q, (p, q) ∈ r_m smallJobs 2 false "m" →
          (q, p) ∉ r_m smallJobs 2 false "m") ∧
        ((("a", 1, 1), ("b", 1, 2)) ∈ r_m smallJobs 2 false "m" ∧
          ((("a", 1, 1), ("b", 1, 2)) : VarKey × VarKey) ∉ r_m smallJobs 2 false "x")) := by
  have h := C7_dedup smallJobs 2 false (by decide)
  have hmem : ((("a", 1, 1), ("b", 1, 2)) : VarKey × VarKey) ∈
      r_m smallJobs 2 false "m" := by decide
  exact ⟨by decide, h.1 "m", fun p q => h.2.1 "m" p q,
    hmem, h.2.2.1 "m" "x" (("a", 1, 1), ("b", 1, 2)) (by decide) hmem⟩

/-- C8: an operation with duration 0 never appears as the occupying operand
(the first operand, whose duration bounds the band) of any overlap-rule
exclusion pair, and never appears as either operand of any equal-start
exclusion pair. -/
theorem C8_zero_duration (J : JobSpec) (maxT : Nat) (rit : Bool) (m j : String)
    (x : Nat) (hdur : durAt J j x = 0) :
    (∀ t q, ((j, x + 1, t), q) ∉ a_m_keys J maxT rit m) ∧
    (∀ t q, ((j, x + 1, t), q) ∉ b_m_keys J maxT rit m ∧
      (q, (j, x + 1, t)) ∉ b_m_keys J maxT rit m) := by
  constructor
  · intro t q h
    obtain ⟨i, k, t', tp', _, _, _, _, ⟨_, _, hlt, hpos⟩, hkey⟩ :=
      mem_a_m_keys_iff.mp h
    obtain ⟨ij, ix⟩ := i
    obtain ⟨h1, h2⟩ := Prod.mk.injEq .. ▸ hkey
    simp only [toKey, Prod.mk.injEq] at h1
    obtain ⟨hj, hx, ht⟩ := h1
    rw [← hj, show ix = x by omega, hdur] at hlt
    omega
  · intro t q
    constructor
    · intro h
      obtain ⟨i, k, t', tp', _, _, _, _, ⟨_, _, hd1, _⟩, hkey⟩ :=
        mem_b_m_keys_iff.mp h
      obtain ⟨ij, ix⟩ := i
      obtain ⟨h1, h2⟩ := Prod.mk.injEq .. ▸ hkey
      simp only [toKey, Prod.mk.injEq] at h1
      obtain ⟨hj, hx, ht⟩ := h1
      rw [← hj, show ix = x by omega, hdur] at hd1
      omega
    · intro h
      obtain ⟨i, k, t', tp', _, _, _, _, ⟨_, _, _, hd2⟩, hkey⟩ :=
        mem_b_m_keys_iff.mp h
      obtain ⟨kj, kx⟩ := k
      obtain ⟨h1, h2⟩ := Prod.mk.injEq .. ▸ hkey
      simp only [toKey, Prod.mk.injEq] at h2
      obtain ⟨hj, hx, ht⟩ := h2
      rw [← hj, show kx = x by omega, hdur] at hd2
      omega

/-- A one-job spec with a zero-duration operation, used to instantiate C8. -/
def zeroJobs : JobSpec := [("z", [("m", 0)])]

/-- Witness for C8: the zero-duration operation of `zeroJobs` is excluded
from the occupying role and from equal-start pairs at a concrete input. -/
theorem C8_zero_duration_witness :
    durAt zeroJobs "z" 0 = 0 ∧
      ((("z", 0 + 1, 1), ("z", 1, 1)) : VarKey × VarKey) ∉ a_m_keys zeroJobs 1 true "m" ∧
      ((("z", 0 + 1, 1), ("z", 1, 1)) : VarKey × VarKey) ∉ b_m_keys zeroJobs 1 true "m" ∧
      ((("z", 1, 1), ("z", 0 + 1, 1)) : VarKey × VarKey) ∉ b_m_keys zeroJobs 1 true "m" :=
  ⟨by decide, (C8_zero_duration zeroJobs 1 true "m" "z" 0 (by decide)).1 1 ("z", 1, 1),
    ((C8_zero_duration zeroJobs 1 true "m" "z" 0 (by decide)).2 1 ("z", 1, 1)).1,
    ((C8_zero_duration zeroJobs 1 true "m" "z" 0 (by decide)).2 1 ("z", 1, 1)).2⟩

theorem binarySum_eq_count : ∀ (args : List Nat), (∀ a ∈ args, a = 0 ∨ a = 1) →
    args.sum = args.count 1
  | [], _ => rfl
  | a :: l, h => by
      have ha := h a (List.mem_cons_self a l)
      have hl := binarySum_eq_count l (fun b hb => h b (List.mem_cons_of_mem a hb))
      rcases ha with rfl | rfl <;> simp [List.count_cons, hl] <;> omega

theorem sum_replicate_set : ∀ (n i : Nat), i < n →
    ((List.replicate n 0).set i 1).sum = 1
  | 0, i, h => by cases h
  | n + 1, 0, _ => by simp [List.replicate_succ]
  | n + 1, i + 1, h => by
      rw [List.replicate_succ, List.set_cons_succ]
      have := sum_replicate_set n i (by omega)
      simp [this]

/-- C9: the start-once predicate over binary variables is true iff exactly
one of them is 1, and the explicit one-hot enumeration for length `n` returns
exactly `n` configurations, each of length `n` and each summing to exactly
1. -/
theorem C9_start_once_one_hot (n : Nat) (args : List Nat)
    (hlen : args.length = n) (hbin : ∀ a ∈ args, a = 0 ∨ a = 1) :
    (start_once args = true ↔ args.count 1 = 1) ∧
    (get_one_hot_configs n).length = n ∧
    ∀ c ∈ get_one_hot_configs n, c.length = n ∧ c.sum = 1 := by
  refine ⟨?_, by simp [get_one_hot_configs], ?_⟩
  · rw [start_once, beq_iff_eq, binarySum_eq_count args hbin]
  · intro c hc
    obtain ⟨i, hi, rfl⟩ := List.mem_map.mp hc
    refine ⟨by simp, ?_⟩
    exact sum_replicate_set n i (List.mem_range.mp hi)

/-- Witness for C9: the predicate and enumeration facts at `n = 3` with the
binary assignment `[0, 1, 0]`. -/
theorem C9_start_once_one_hot_witness :
    ([0, 1, 0] : List Nat).length = 3 ∧ (∀ a ∈ ([0, 1, 0] : List Nat), a = 0 ∨ a = 1) ∧
      ((start_once [0, 1, 0] = true ↔ ([0, 1, 0] : List Nat).count 1 = 1) ∧
        (get_one_hot_configs 3).length = 3 ∧
        ∀ c ∈ get_one_hot_configs 3, c.length = 3 ∧ c.sum = 1) :=
  ⟨by decide, by decide, C9_start_once_one_hot 3 [0, 1, 0] (by decide) (by decide)⟩

/-- C10: every exclusion pair generated by either family relates two distinct
variable keys — no variable is ever excluded against itself. -/
theorem C10_no_self_pairs (J : JobSpec) (maxT : Nat) (rit : Bool) :
    (∀ m p q, (p, q) ∈ r_m J maxT rit m → p ≠ q) ∧
    (∀ job ops, (job, ops) ∈ J → ∀ i t k tp,
      (i, t, k, tp) ∈ precPairsFor J maxT rit job ops →
        ((job, i + 1, t) : VarKey) ≠ (job, k + 1, tp)) := by
  constructor
  · intro m p q h heq
    subst heq
    rcases r_m_shape h with hs | ⟨_, hs | ⟨_, hs⟩⟩
    · omega
    · exact absurd hs (lt_irrefl _)
    · omega
  · intro job ops hmem i t k tp h heq
    obtain ⟨i', t', tp', _, _, _, _, hval⟩ := mem_precPairsFor_iff.mp h
    simp only [Prod.mk.injEq] at hval
    simp only [Prod.mk.injEq] at heq
    omega

/-- Witness for C10: a concrete overlap pair of `smallJobs` relates two
distinct keys, and a concrete precedence tuple of the end-to-end example
relates two distinct keys. -/
theorem C10_no_self_pairs_witness :
    ((("a", 1, 1), ("b", 1, 2)) : VarKey × VarKey) ∈ r_m smallJobs 2 false "m" ∧
      (("a", 1, 1) : VarKey) ≠ ("b", 1, 2) ∧
      ("j1", [("m1", 2), ("m2", 1), ("m3", 1)]) ∈ exampleJobs ∧
      (0, 2, 1, 3) ∈ precPairsFor exampleJobs 7 true "j1"
        [("m1", 2), ("m2", 1), ("m3", 1)] ∧
      (("j1", 0 + 1, 2) : VarKey) ≠ ("j1", 1 + 1, 3) :=
  ⟨by decide,
    (C10_no_self_pairs smallJobs 2 false).1 "m" ("a", 1, 1) ("b", 1, 2) (by decide),
    by decide, by decide,
    (C10_no_self_pairs exampleJobs 7 true).2 "j1" [("m1", 2), ("m2", 1), ("m3", 1)]
      (by decide) 0 2 1 3 (by decide)⟩
